import Mathlib

/-!
Verification of the index-free encode/search/clear subsystem described by the
repository's specification and demonstrated in
`examples/06-index_free_use.ipynb`.  The notebook only invokes the library API
(`encode`, `search_encoded_docs`, `clear_encoded_docs`); the implementation of
those operations is not part of the reviewed source tree, so each operation
below is modelled from the specification's contracts (sections 3, 4, 6 and 7
of the spec) and marked as such in its doc comment.
-/

/-- Modelled from the spec: a metadata mapping from string keys to string
values (the implementation's metadata dictionaries are not in the source
tree), represented as an association list. -/
abbrev Metadata := List (String × String)

/-- Modelled from the spec: a per-token embedding vector; integer components
stand in for the real-valued components produced by the external encoder. -/
abbrev Vec := List Int

/-- Modelled from the spec (section 3, data model): an encoded document held
by the in-memory store. -/
structure EncodedDocument where
  result_index : Nat
  content : String
  embedding : List Vec
  metadata : Option Metadata
deriving DecidableEq

/-- Modelled from the spec (section 3): the in-memory store, an ordered
sequence of encoded documents, append-only until cleared. -/
structure Store where
  docs : List EncodedDocument
deriving DecidableEq

/-- The store a freshly loaded model starts with: created empty. -/
def emptyStore : Store := ⟨[]⟩

/-- Modelled from the spec (section 3): one search-result record.  The
optional `document_metadata` field is `none` exactly when the returned JSON
record carries no such key. -/
structure ScoredResult where
  content : String
  score : Int
  rank : Nat
  result_index : Nat
  document_metadata : Option Metadata
deriving DecidableEq

/-- An encoder maps a text to its per-token embeddings.  The real encoder is
an external collaborator (the pretrained ColBERT model), so it is kept
abstract as a parameter. -/
abbrev Encoder := String → List Vec

/-- Documents built from text/metadata pairs, numbering result indices from
`n` upward: the next document always receives the next index. -/
def encodeDocs (enc : Encoder) : Nat → List (String × Option Metadata) → List EncodedDocument
  | _, [] => []
  | n, p :: rest => ⟨n, p.1, enc p.1, p.2⟩ :: encodeDocs enc (n + 1) rest

/-- Pair each text with its metadata, aligned one to one. -/
def withMeta : List String → List Metadata → List (String × Option Metadata)
  | t :: ts, m :: ms => (t, some m) :: withMeta ts ms
  | _, _ => []

/-- Pair each text with an absent metadata field. -/
def withoutMeta : List String → List (String × Option Metadata)
  | [] => []
  | t :: ts => (t, none) :: withoutMeta ts

/-- The input-validation error reported when the metadata batch does not
match the document batch. -/
def lengthMismatchMsg : String := "document_metadatas must be the same length as documents"

/-- Modelled from the spec (sections 4.1, 6, 7): the library's
`RAGPretrainedModel.encode`, whose implementation is not in the source tree.
Appends one encoded document per input text to the store, assigning
`result_index` values starting at the current store length; fails with an
input-validation error, appending nothing, when a metadata sequence of the
wrong length is supplied. -/
def encode (enc : Encoder) (s : Store) (documents : List String)
    (document_metadatas : Option (List Metadata)) : Except String Store :=
  match document_metadatas with
  | none => Except.ok ⟨s.docs ++ encodeDocs enc s.docs.length (withoutMeta documents)⟩
  | some ms =>
    if ms.length = documents.length then
      Except.ok ⟨s.docs ++ encodeDocs enc s.docs.length (withMeta documents ms)⟩
    else
      Except.error lengthMismatchMsg

/-- Dot-product similarity between two token vectors. -/
def dotInt (u v : Vec) : Int := (List.zipWith (fun a b => a * b) u v).sum

/-- Maximum of a list of similarity values (0 for a document with no
tokens). -/
def maxScore : List Int → Int
  | [] => 0
  | x :: xs => xs.foldl max x

/-- Modelled from the spec (section 4.2): the late-interaction (MaxSim)
score: for each query token take the maximum similarity over all document
tokens, then sum across query tokens. -/
def lateInteraction (q d : List Vec) : Int :=
  (q.map (fun qt => maxScore (d.map (fun dt => dotInt qt dt)))).sum

/-- Ranking order on (score, document) pairs: higher score first, ties broken
by lower `result_index` (original insertion order). -/
def rankedBefore (a b : Int × EncodedDocument) : Prop :=
  b.1 < a.1 ∨ (a.1 = b.1 ∧ a.2.result_index ≤ b.2.result_index)

instance : DecidableRel rankedBefore := fun a b => by
  unfold rankedBefore
  infer_instance

instance : IsTotal (Int × EncodedDocument) rankedBefore where
  total a b := by unfold rankedBefore; omega

instance : IsTrans (Int × EncodedDocument) rankedBefore where
  trans a b c := by unfold rankedBefore; omega

/-- Build one result record at the given rank. -/
def mkRes (rank : Nat) (p : Int × EncodedDocument) : ScoredResult :=
  ⟨p.2.content, p.1, rank, p.2.result_index, p.2.metadata⟩

/-- Attach 0-based ranks, starting at `n`, to a list of scored documents. -/
def toResults : Nat → List (Int × EncodedDocument) → List ScoredResult
  | _, [] => []
  | n, p :: rest => mkRes n p :: toResults (n + 1) rest

/-- Modelled from the spec (sections 4.2, 6): the library's
`RAGPretrainedModel.search_encoded_docs`, whose implementation is not in the
source tree.  Scores every stored document against the encoded query with the
late-interaction metric, sorts descending by score with ties broken by
insertion order, and returns the first `k` results with 0-based ranks. -/
def search_encoded_docs (enc : Encoder) (s : Store) (query : String) (k : Nat) :
    List ScoredResult :=
  toResults 0 ((List.insertionSort rankedBefore
    (s.docs.map (fun d => (lateInteraction (enc query) d.embedding, d)))).take k)

/-- The outcome of a clear request: whether a countdown warning was emitted,
how many time units elapse before the deletion happens, and the store
contents once it has happened. -/
structure ClearJob where
  warning : Bool
  delay : Nat
  final : Store
deriving DecidableEq

/-- Modelled from the spec (section 4.3): the fixed deletion delay of 10 time
units used when `force` is false. -/
def clearDelay : Nat := 10

/-- Modelled from the spec (sections 4.3, 6): the library's
`RAGPretrainedModel.clear_encoded_docs`, whose implementation is not in the
source tree.  With `force` true it deletes all store contents immediately and
silently; with `force` false it emits a countdown warning and only deletes
after the fixed delay. -/
def clear_encoded_docs (force : Bool) (s : Store) : ClearJob :=
  if force then ⟨false, 0, emptyStore⟩ else ⟨true, clearDelay, emptyStore⟩

/-- The store visible `t` time units after a clear was requested on `s`: the
original store while the delay has not elapsed, the cleared store
afterwards. -/
def storeAt (s : Store) (j : ClearJob) (t : Nat) : Store :=
  if t < j.delay then s else j.final

/-- A sequence of successful encode calls with no intervening clear: each
step feeds the store returned by the previous call into the next. -/
inductive EncodeTrace (enc : Encoder) :
    Store → List (List String × Option (List Metadata)) → Store → Prop
  | nil (s : Store) : EncodeTrace enc s [] s
  | cons {s s' s'' : Store} {b : List String × Option (List Metadata)}
      {bs : List (List String × Option (List Metadata))} :
      encode enc s b.1 b.2 = Except.ok s' → EncodeTrace enc s' bs s'' →
      EncodeTrace enc s (b :: bs) s''

/-- The store invariant maintained by the API within one lifetime: the
result indices are exactly `0, 1, ..., size - 1` in insertion order. -/
def goodStore (s : Store) : Prop :=
  s.docs.map (fun d => d.result_index) = List.range s.docs.length

/-- Result `a` is ranked strictly before result `b`: higher score, or equal
score and earlier insertion order. -/
def resultBefore (a b : ScoredResult) : Prop :=
  b.score < a.score ∨ (a.score = b.score ∧ a.result_index < b.result_index)

theorem toResults_length (n : Nat) (l : List (Int × EncodedDocument)) :
    (toResults n l).length = l.length := by
  induction l generalizing n with
  | nil => rfl
  | cons p rest ih => simp [toResults, ih]

theorem toResults_map_rank (n : Nat) (l : List (Int × EncodedDocument)) :
    (toResults n l).map (fun r => r.rank) = List.range' n l.length := by
  induction l generalizing n with
  | nil => rfl
  | cons p rest ih => simp [toResults, mkRes, List.range'_succ, ih]

theorem mem_toResults {r : ScoredResult} :
    ∀ {n : Nat} {l : List (Int × EncodedDocument)}, r ∈ toResults n l →
      ∃ p ∈ l, ∃ m, r = mkRes m p := by
  intro n l
  induction l generalizing n with
  | nil => intro h; cases h
  | cons p rest ih =>
    intro h
    rcases List.mem_cons.mp h with h | h
    · exact ⟨p, List.mem_cons_self p rest, n, h⟩
    · rcases ih h with ⟨q, hq, m, hm⟩
      exact ⟨q, List.mem_cons_of_mem p hq, m, hm⟩

theorem pairwise_toResults {S : (Int × EncodedDocument) → (Int × EncodedDocument) → Prop}
    {R : ScoredResult → ScoredResult → Prop}
    (hlift : ∀ p q n m, S p q → R (mkRes n p) (mkRes m q)) :
    ∀ (n : Nat) {l : List (Int × EncodedDocument)}, l.Pairwise S →
      (toResults n l).Pairwise R := by
  intro n l
  induction l generalizing n with
  | nil => intro _; exact List.Pairwise.nil
  | cons p rest ih =>
    intro h
    rcases List.pairwise_cons.mp h with ⟨hhead, htail⟩
    refine List.pairwise_cons.mpr ⟨?_, ih (n + 1) htail⟩
    intro r hr
    rcases mem_toResults hr with ⟨q, hq, m, hm⟩
    exact hm ▸ hlift p q n m (hhead q hq)

theorem encodeDocs_length (enc : Encoder) :
    ∀ (n : Nat) (ps : List (String × Option Metadata)),
      (encodeDocs enc n ps).length = ps.length := by
  intro n ps
  induction ps generalizing n with
  | nil => rfl
  | cons p rest ih => simp [encodeDocs, ih]

theorem encodeDocs_map_result_index (enc : Encoder) :
    ∀ (n : Nat) (ps : List (String × Option Metadata)),
      (encodeDocs enc n ps).map (fun d => d.result_index) = List.range' n ps.length := by
  intro n ps
  induction ps generalizing n with
  | nil => rfl
  | cons p rest ih => simp [encodeDocs, List.range'_succ, ih]

theorem mem_encodeDocs {enc : Encoder} {d : EncodedDocument} :
    ∀ {n : Nat} {ps : List (String × Option Metadata)}, d ∈ encodeDocs enc n ps →
      ∃ i, ∃ h : i < ps.length,
        d = ⟨n + i, (ps.get ⟨i, h⟩).1, enc (ps.get ⟨i, h⟩).1, (ps.get ⟨i, h⟩).2⟩ := by
  intro n ps
  induction ps generalizing n with
  | nil => intro h; cases h
  | cons p rest ih =>
    intro h
    rcases List.mem_cons.mp h with h | h
    · exact ⟨0, Nat.succ_pos rest.length, by simpa using h⟩
    · rcases ih h with ⟨i, hi, hd⟩
      refine ⟨i + 1, Nat.succ_lt_succ hi, ?_⟩
      have harith : n + (i + 1) = n + 1 + i := by omega
      rw [harith]
      simpa using hd

theorem withoutMeta_length (ts : List String) : (withoutMeta ts).length = ts.length := by
  induction ts with
  | nil => rfl
  | cons t rest ih => simp [withoutMeta, ih]

theorem withoutMeta_get (ts : List String) (i : Nat) (h : i < (withoutMeta ts).length) :
    (withoutMeta ts).get ⟨i, h⟩ =
      (ts.get ⟨i, by rw [← withoutMeta_length ts]; exact h⟩, none) := by
  induction ts generalizing i with
  | nil => cases h
  | cons t rest ih =>
    cases i with
    | zero => rfl
    | succ j => exact ih j (Nat.lt_of_succ_lt_succ h)

theorem withMeta_length (ts : List String) (ms : List Metadata) :
    (withMeta ts ms).length = min ts.length ms.length := by
  induction ts generalizing ms with
  | nil => cases ms <;> rfl
  | cons t rest ih =>
    cases ms with
    | nil => rfl
    | cons m mrest => simp [withMeta, ih, Nat.succ_min_succ]

theorem withMeta_get :
    ∀ (ts : List String) (ms : List Metadata) (i : Nat)
      (h : i < (withMeta ts ms).length),
      ∃ (ht : i < ts.length) (hm : i < ms.length),
        (withMeta ts ms).get ⟨i, h⟩ = (ts.get ⟨i, ht⟩, some (ms.get ⟨i, hm⟩)) := by
  intro ts
  induction ts with
  | nil => intro ms i h; cases ms <;> cases h
  | cons t rest ih =>
    intro ms i h
    cases ms with
    | nil => cases h
    | cons m mrest =>
      cases i with
      | zero => exact ⟨Nat.succ_pos _, Nat.succ_pos _, rfl⟩
      | succ j =>
        rcases ih mrest j (Nat.lt_of_succ_lt_succ h) with ⟨ht, hm, hg⟩
        exact ⟨Nat.succ_lt_succ ht, Nat.succ_lt_succ hm, hg⟩

theorem search_emptyStore (enc : Encoder) (q : String) (k : Nat) :
    search_encoded_docs enc emptyStore q k = [] := by
  simp [search_encoded_docs, emptyStore, toResults]

theorem mem_search {enc : Encoder} {s : Store} {q : String} {k : Nat}
    {r : ScoredResult} (hr : r ∈ search_encoded_docs enc s q k) :
    ∃ d ∈ s.docs, r.content = d.content ∧ r.result_index = d.result_index ∧
      r.document_metadata = d.metadata ∧
      r.score = lateInteraction (enc q) d.embedding := by
  rcases mem_toResults hr with ⟨p, hp, m, hm⟩
  have hp2 : p ∈ List.insertionSort rankedBefore
      (s.docs.map (fun d => (lateInteraction (enc q) d.embedding, d))) :=
    List.mem_of_mem_take hp
  have hp3 : p ∈ s.docs.map (fun d => (lateInteraction (enc q) d.embedding, d)) :=
    (List.perm_insertionSort rankedBefore _).subset hp2
  rcases List.mem_map.mp hp3 with ⟨d, hd, hpd⟩
  exact ⟨d, hd, by rw [hm, ← hpd]; exact ⟨rfl, rfl, rfl, rfl⟩⟩

theorem take_sort_pairwise {enc : Encoder} {s : Store} (q : String) (k : Nat)
    (hnd : (s.docs.map (fun d => d.result_index)).Nodup) :
    ((List.insertionSort rankedBefore
        (s.docs.map (fun d => (lateInteraction (enc q) d.embedding, d)))).take k).Pairwise
      (fun a b => rankedBefore a b ∧ a.2.result_index ≠ b.2.result_index) := by
  have hdocs : s.docs.Pairwise (fun a b => a.result_index ≠ b.result_index) :=
    List.pairwise_map.mp hnd
  have hscored : (s.docs.map (fun d => (lateInteraction (enc q) d.embedding, d))).Pairwise
      (fun a b => a.2.result_index ≠ b.2.result_index) :=
    List.pairwise_map.mpr hdocs
  have hperm := List.perm_insertionSort rankedBefore
    (s.docs.map (fun d => (lateInteraction (enc q) d.embedding, d)))
  have hsortne : (List.insertionSort rankedBefore
      (s.docs.map (fun d => (lateInteraction (enc q) d.embedding, d)))).Pairwise
      (fun a b => a.2.result_index ≠ b.2.result_index) :=
    (hperm.pairwise_iff (fun hxy => Ne.symm hxy)).mpr hscored
  have hsorted := List.sorted_insertionSort rankedBefore
    (s.docs.map (fun d => (lateInteraction (enc q) d.embedding, d)))
  exact List.Pairwise.and
    (List.Pairwise.sublist (List.take_sublist k _) hsorted)
    (List.Pairwise.sublist (List.take_sublist k _) hsortne)

def encA : Encoder := fun _ => [[1]]

def qX : String := "what is this about"

def txtNew : String := "a new document"

def docA : EncodedDocument := ⟨0, "doc a", [[2]], none⟩

def docB : EncodedDocument := ⟨1, "doc b", [[1]], none⟩

def storeAB : Store := ⟨[docA, docB]⟩

/-- C1: for every store (with the distinct-index invariant) and every query,
the sequence returned by `search_encoded_docs` is sorted non-increasingly by
score, ties are broken by original insertion order (lower `result_index`
first), and each result's `rank` equals its 0-based position. -/
theorem search_sorted_ranked (enc : Encoder) (s : Store) (q : String) (k : Nat)
    (hnd : (s.docs.map (fun d => d.result_index)).Nodup) :
    (search_encoded_docs enc s q k).Pairwise resultBefore ∧
    (search_encoded_docs enc s q k).Pairwise (fun a b => b.score ≤ a.score) ∧
    (search_encoded_docs enc s q k).map (fun r => r.rank) =
      List.range (search_encoded_docs enc s q k).length := by
  have hpw : (search_encoded_docs enc s q k).Pairwise resultBefore := by
    unfold search_encoded_docs
    refine pairwise_toResults ?_ 0 (take_sort_pairwise q k hnd)
    intro p p' n m hpp
    rcases hpp with ⟨hrb, hne⟩
    unfold rankedBefore at hrb
    unfold resultBefore mkRes
    simp only []
    omega
  refine ⟨hpw, List.Pairwise.imp ?_ hpw, ?_⟩
  · intro a b hab
    unfold resultBefore at hab
    omega
  · unfold search_encoded_docs
    rw [toResults_map_rank, toResults_length, List.range_eq_range']

theorem search_sorted_ranked_witness :
    (search_encoded_docs encA storeAB qX 2).Pairwise resultBefore :=
  (search_sorted_ranked encA storeAB qX 2 (by decide)).1

/-- C2: for every store and every k > 0, `search_encoded_docs` returns
exactly `min k (store size)` results: never more than `k`, and a `k` larger
than the store size is clipped rather than an error. -/
theorem search_length_min (enc : Encoder) (s : Store) (q : String) (k : Nat)
    (hk : 0 < k) :
    (search_encoded_docs enc s q k).length = min k s.docs.length := by
  unfold search_encoded_docs
  rw [toResults_length, List.length_take, List.length_insertionSort, List.length_map]

theorem search_length_min_witness :
    (search_encoded_docs encA storeAB qX 5).length = min 5 storeAB.docs.length :=
  search_length_min encA storeAB qX 5 (by decide)

theorem encode_none_ok {enc : Encoder} {s s' : Store} {texts : List String}
    (h : encode enc s texts none = Except.ok s') :
    s'.docs = s.docs ++ encodeDocs enc s.docs.length (withoutMeta texts) := by
  simp only [encode] at h
  cases h
  rfl

theorem encode_some_ok {enc : Encoder} {s s' : Store} {texts : List String}
    {ms : List Metadata} (h : encode enc s texts (some ms) = Except.ok s') :
    ms.length = texts.length ∧
    s'.docs = s.docs ++ encodeDocs enc s.docs.length (withMeta texts ms) := by
  simp only [encode] at h
  by_cases hlen : ms.length = texts.length
  · rw [if_pos hlen] at h
    cases h
    exact ⟨hlen, rfl⟩
  · rw [if_neg hlen] at h
    exact Except.noConfusion h

theorem encode_ok_length {enc : Encoder} {s s' : Store} {texts : List String}
    {metas : Option (List Metadata)} (h : encode enc s texts metas = Except.ok s') :
    s'.docs.length = s.docs.length + texts.length := by
  cases metas with
  | none =>
    rw [encode_none_ok h, List.length_append, encodeDocs_length, withoutMeta_length]
  | some ms =>
    rcases encode_some_ok h with ⟨hlen, hd⟩
    rw [hd, List.length_append, encodeDocs_length, withMeta_length, hlen,
      Nat.min_self]

theorem encode_ok_map_result_index {enc : Encoder} {s s' : Store}
    {texts : List String} {metas : Option (List Metadata)}
    (h : encode enc s texts metas = Except.ok s') :
    s'.docs.map (fun d => d.result_index) =
      s.docs.map (fun d => d.result_index) ++
        List.range' s.docs.length texts.length := by
  cases metas with
  | none =>
    rw [encode_none_ok h, List.map_append, encodeDocs_map_result_index,
      withoutMeta_length]
  | some ms =>
    rcases encode_some_ok h with ⟨hlen, hd⟩
    rw [hd, List.map_append, encodeDocs_map_result_index, withMeta_length, hlen,
      Nat.min_self]

def stdDoc (i : Nat) : EncodedDocument := ⟨i, "", [], none⟩

def stdStore (n : Nat) : Store := ⟨(List.range n).map stdDoc⟩

theorem goodStore_stdStore (n : Nat) : goodStore (stdStore n) := by
  unfold goodStore stdStore
  simp only [List.map_map, List.length_map, List.length_range]
  have hfun : ((fun d => d.result_index) ∘ stdDoc) = fun i : Nat => i := rfl
  rw [hfun]
  simp

/-- C3: within one store lifetime, result indices are unique and strictly
increasing in insertion order, and an encode call assigns the next document
the index equal to the current store length (after 212 stored documents the
next encoded document receives `result_index` 212). -/
theorem encode_result_index (enc : Encoder) (s s' : Store) (texts : List String)
    (metas : Option (List Metadata)) (hg : goodStore s)
    (hok : encode enc s texts metas = Except.ok s') :
    goodStore s' ∧
    s'.docs.map (fun d => d.result_index) = List.range (s.docs.length + texts.length) ∧
    (s'.docs.map (fun d => d.result_index)).Nodup ∧
    (s'.docs.map (fun d => d.result_index)).Pairwise (fun a b => a < b) ∧
    (0 < texts.length →
      (s'.docs.map (fun d => d.result_index))[s.docs.length]? = some s.docs.length) := by
  have hmap : s'.docs.map (fun d => d.result_index) =
      List.range (s.docs.length + texts.length) := by
    rw [encode_ok_map_result_index hok, hg, List.range_add, List.range'_eq_map_range]
  refine ⟨?_, hmap, ?_, ?_, ?_⟩
  · unfold goodStore
    rw [hmap, encode_ok_length hok]
  · rw [hmap]
    exact List.nodup_range _
  · rw [hmap]
    exact List.pairwise_lt_range _
  · intro hpos
    rw [hmap]
    exact List.getElem?_range (by omega)

def s213 : Store := ⟨(stdStore 212).docs ++ encodeDocs encA 212 (withoutMeta [txtNew])⟩

theorem encode_result_index_witness :
    (s213.docs.map (fun d => d.result_index))[212]? = some 212 := by
  have h := encode_result_index encA (stdStore 212) s213 [txtNew] none
    (goodStore_stdStore 212) rfl
  have h2 := h.2.2.2.2 (by decide)
  have hlen : (stdStore 212).docs.length = 212 := by
    simp [stdStore]
  rw [hlen] at h2
  exact h2

/-- C6: an encode call supplying a metadata sequence whose length differs
from the texts' length fails with an input-validation error and appends
nothing (no store is produced). -/
theorem encode_length_mismatch (enc : Encoder) (s : Store) (texts : List String)
    (ms : List Metadata) (h : ms.length ≠ texts.length) :
    encode enc s texts (some ms) = Except.error lengthMismatchMsg ∧
    ∀ s', encode enc s texts (some ms) ≠ Except.ok s' := by
  have herr : encode enc s texts (some ms) = Except.error lengthMismatchMsg := by
    simp only [encode]
    rw [if_neg h]
  refine ⟨herr, ?_⟩
  intro s' hok
  rw [herr] at hok
  exact Except.noConfusion hok

theorem encode_length_mismatch_witness :
    encode encA storeAB [txtNew] (some []) = Except.error lengthMismatchMsg :=
  (encode_length_mismatch encA storeAB [txtNew] [] (by decide)).1

/-- C7: for every sequence of encode calls with no intervening clear, the
store size equals the starting size plus the sum of the per-call document
counts, and a clear resets the store size to 0. -/
theorem store_size_sum (enc : Encoder) (s s' : Store)
    (bs : List (List String × Option (List Metadata)))
    (ht : EncodeTrace enc s bs s') (force : Bool) :
    s'.docs.length = s.docs.length + (bs.map (fun b => b.1.length)).sum ∧
    (clear_encoded_docs force s').final.docs.length = 0 := by
  constructor
  · induction ht with
    | nil t => simp
    | cons hok htrace ih =>
      have hstep := encode_ok_length hok
      simp only [List.map_cons, List.sum_cons]
      omega
  · cases force <;> simp [clear_encoded_docs, emptyStore]

def s1 : Store := ⟨encodeDocs encA 0 (withoutMeta [txtNew])⟩

theorem store_size_sum_witness :
    s1.docs.length = emptyStore.docs.length +
      ([([txtNew], none)].map
        (fun b : List String × Option (List Metadata) => b.1.length)).sum ∧
    (clear_encoded_docs true s1).final.docs.length = 0 :=
  store_size_sum encA emptyStore s1 [([txtNew], none)]
    (EncodeTrace.cons rfl (EncodeTrace.nil s1)) true

/-- C4: with force false, `clear_encoded_docs` emits a countdown warning and
waits the fixed delay of 10 time units before deleting the store contents;
while the delay has not elapsed the encodings remain searchable, and once it
has elapsed they are unreachable; with force true deletion is immediate with
no delay. -/
theorem clear_countdown (enc : Encoder) (s : Store) (q : String) (k : Nat) :
    (clear_encoded_docs false s).warning = true ∧
    (clear_encoded_docs false s).delay = 10 ∧
    (∀ t, t < 10 →
      storeAt s (clear_encoded_docs false s) t = s ∧
      search_encoded_docs enc (storeAt s (clear_encoded_docs false s) t) q k =
        search_encoded_docs enc s q k) ∧
    (∀ t, 10 ≤ t →
      storeAt s (clear_encoded_docs false s) t = emptyStore ∧
      search_encoded_docs enc (storeAt s (clear_encoded_docs false s) t) q k = []) ∧
    (clear_encoded_docs true s).warning = false ∧
    (clear_encoded_docs true s).delay = 0 ∧
    storeAt s (clear_encoded_docs true s) 0 = emptyStore := by
  have hif : ∀ t, storeAt s (clear_encoded_docs false s) t =
      if t < 10 then s else emptyStore := fun t => rfl
  refine ⟨rfl, rfl, ?_, ?_, rfl, rfl, rfl⟩
  · intro t ht
    have hst : storeAt s (clear_encoded_docs false s) t = s := by
      rw [hif t, if_pos ht]
    exact ⟨hst, by rw [hst]⟩
  · intro t ht
    have hst : storeAt s (clear_encoded_docs false s) t = emptyStore := by
      rw [hif t, if_neg (by omega)]
    exact ⟨hst, by rw [hst]; exact search_emptyStore enc q k⟩

theorem clear_countdown_witness :
    storeAt storeAB (clear_encoded_docs false storeAB) 3 = storeAB ∧
    search_encoded_docs encA (storeAt storeAB (clear_encoded_docs false storeAB) 10) qX 1 = [] := by
  have h := clear_countdown encA storeAB qX 1
  exact ⟨(h.2.2.1 3 (by decide)).1, (h.2.2.2.1 10 (by decide)).2⟩

/-- C5: after a clear completes, the store length is 0, an immediate search
on any query returns the empty sequence, no previously stored document
remains, and a subsequent encode call restarts `result_index` assignment
from 0. -/
theorem clear_then_empty (enc : Encoder) (force : Bool) (s s' : Store)
    (q : String) (k : Nat) (texts : List String)
    (hok : encode enc (clear_encoded_docs force s).final texts none = Except.ok s') :
    (clear_encoded_docs force s).final.docs = [] ∧
    (clear_encoded_docs force s).final.docs.length = 0 ∧
    search_encoded_docs enc (clear_encoded_docs force s).final q k = [] ∧
    s'.docs.map (fun d => d.result_index) = List.range texts.length := by
  have hfin : (clear_encoded_docs force s).final = emptyStore := by
    cases force <;> rfl
  refine ⟨by rw [hfin]; rfl, by rw [hfin]; rfl,
    by rw [hfin]; exact search_emptyStore enc q k, ?_⟩
  have hmap := encode_ok_map_result_index hok
  rw [hfin] at hmap
  simp only [emptyStore, List.map_nil, List.length_nil, List.nil_append] at hmap
  rw [List.range_eq_range']
  exact hmap

theorem clear_then_empty_witness :
    search_encoded_docs encA (clear_encoded_docs true storeAB).final qX 3 = [] ∧
    s1.docs.map (fun d => d.result_index) = List.range 1 := by
  have h := clear_then_empty encA true storeAB s1 qX 3 [txtNew] rfl
  exact ⟨h.2.2.1, h.2.2.2⟩

/-- C8: searching an empty store returns the empty sequence for every query
and every k > 0, and is not an error. -/
theorem search_empty_store (enc : Encoder) (q : String) (k : Nat) (hk : 0 < k) :
    search_encoded_docs enc emptyStore q k = [] :=
  search_emptyStore enc q k

theorem search_empty_store_witness :
    search_encoded_docs encA emptyStore qX 3 = [] :=
  search_empty_store encA qX 3 (by decide)

/-- C9: every document text passed to encode and later returned among search
results round-trips unmodified: the `content` field of its result equals the
text at its `result_index` in the encoded batch. -/
theorem content_roundtrip (enc : Encoder) (texts : List String) (q : String)
    (k : Nat) (s' : Store)
    (hok : encode enc emptyStore texts none = Except.ok s') :
    ∀ r ∈ search_encoded_docs enc s' q k,
      texts[r.result_index]? = some r.content := by
  intro r hr
  rcases mem_search hr with ⟨d, hd, hc, hi, _hm, _hs⟩
  have hdocs := encode_none_ok hok
  simp only [emptyStore, List.length_nil, List.nil_append] at hdocs
  rw [hdocs] at hd
  rcases mem_encodeDocs hd with ⟨i, hilt, hdeq⟩
  subst hdeq
  have hit : i < texts.length := by
    have hwl := withoutMeta_length texts
    omega
  have hc2 : r.content = ((withoutMeta texts).get ⟨i, hilt⟩).1 := hc
  have hi2 : r.result_index = 0 + i := hi
  have hir : r.result_index = i := by omega
  rw [hir, hc2, withoutMeta_get texts i hilt]
  exact List.getElem?_eq_getElem hit

def res1 : ScoredResult := ⟨txtNew, lateInteraction (encA qX) (encA txtNew), 0, 0, none⟩

theorem search_s1 : search_encoded_docs encA s1 qX 1 = [res1] := rfl

theorem content_roundtrip_witness :
    [txtNew][res1.result_index]? = some res1.content := by
  have h := content_roundtrip encA [txtNew] qX 1 s1 rfl
  exact h res1 (by rw [search_s1]; exact List.mem_singleton_self res1)

/-- C10: results for documents encoded without metadata carry no
`document_metadata` field (the optional field is absent), while results for
documents encoded with metadata carry exactly the metadata supplied for the
document at their `result_index`. -/
theorem metadata_presence (enc : Encoder) (texts : List String) (ms : List Metadata)
    (q : String) (k : Nat) (sNone sSome : Store)
    (h1 : encode enc emptyStore texts none = Except.ok sNone)
    (h2 : encode enc emptyStore texts (some ms) = Except.ok sSome) :
    (∀ r ∈ search_encoded_docs enc sNone q k, r.document_metadata = none) ∧
    (∀ r ∈ search_encoded_docs enc sSome q k,
      ∃ m, ms[r.result_index]? = some m ∧ r.document_metadata = some m) := by
  constructor
  · intro r hr
    rcases mem_search hr with ⟨d, hd, _hc, _hi, hm, _hs⟩
    have hdocs := encode_none_ok h1
    simp only [emptyStore, List.length_nil, List.nil_append] at hdocs
    rw [hdocs] at hd
    rcases mem_encodeDocs hd with ⟨i, hilt, hdeq⟩
    subst hdeq
    have hm2 : r.document_metadata = ((withoutMeta texts).get ⟨i, hilt⟩).2 := hm
    rw [hm2, withoutMeta_get texts i hilt]
  · intro r hr
    rcases mem_search hr with ⟨d, hd, _hc, hi, hm, _hs⟩
    rcases encode_some_ok h2 with ⟨hlen, hdocs⟩
    simp only [emptyStore, List.length_nil, List.nil_append] at hdocs
    rw [hdocs] at hd
    rcases mem_encodeDocs hd with ⟨i, hilt, hdeq⟩
    subst hdeq
    rcases withMeta_get texts ms i hilt with ⟨ht, hmlt, hg⟩
    have hm2 : r.document_metadata = ((withMeta texts ms).get ⟨i, hilt⟩).2 := hm
    have hi2 : r.result_index = 0 + i := hi
    have hir : r.result_index = i := by omega
    refine ⟨ms.get ⟨i, hmlt⟩, ?_, ?_⟩
    · rw [hir]
      exact List.getElem?_eq_getElem hmlt
    · rw [hm2, hg]

def md1 : Metadata := [("about", "food")]

def s2 : Store := ⟨encodeDocs encA 0 (withMeta [txtNew] [md1])⟩

def res2 : ScoredResult := ⟨txtNew, lateInteraction (encA qX) (encA txtNew), 0, 0, some md1⟩

theorem search_s2 : search_encoded_docs encA s2 qX 1 = [res2] := rfl

theorem metadata_presence_witness :
    res1.document_metadata = none ∧
    ∃ m, [md1][res2.result_index]? = some m ∧ res2.document_metadata = some m := by
  have h := metadata_presence encA [txtNew] [md1] qX 1 s1 s2 rfl rfl
  exact ⟨h.1 res1 (by rw [search_s1]; exact List.mem_singleton_self res1),
         h.2 res2 (by rw [search_s2]; exact List.mem_singleton_self res2)⟩
